import Mathlib

/-!
Verification development for the bibliography-unification program
(`parsers.py`).  The program's data model and operations are shallowly
embedded: text is `List Char`, Python `dict`s are insertion-ordered
association lists, and the concrete regular-expression rewrites of the
source are translated into explicit, executable scanners.  The external
LaTeX-to-text accent converter (the `pylatexenc` library) is not part of
the repository; every definition that depends on it takes the conversion
function `ltt` as an explicit parameter.
-/

/-- Text is modelled as a list of characters. -/
abbrev Str := List Char

/-- Left brace character (written via its code point). -/
def lbr : Char := '\x7b'

/-- Right brace character (written via its code point). -/
def rbr : Char := '\x7d'

/-- Python `str.lower` restricted to what the program needs
(character-wise lower-casing). -/
def pyLower (s : Str) : Str := s.map Char.toLower

/-- Python whitespace class `\s` for `str` patterns
(space, tab, newline, carriage return, vertical tab, form feed). -/
def isPySpace (c : Char) : Bool :=
  c.toNat = 32 || c.toNat = 9 || c.toNat = 10 || c.toNat = 13 ||
  c.toNat = 11 || c.toNat = 12

/-- The regex class `[A-Z]`. -/
def isUpperAZ (c : Char) : Bool := 65 ≤ c.toNat && c.toNat ≤ 90

/-- Python `str.strip()`: drop whitespace from both ends. -/
def pyStrip (s : Str) : Str :=
  ((s.dropWhile isPySpace).reverse.dropWhile isPySpace).reverse

/-- Ordered dictionary lookup (Python `d[k]` / `k in d`), first match. -/
def lookupD {α : Type} : List (Str × α) → Str → Option α
  | [], _ => none
  | (k', v) :: d, k => if k' = k then some v else lookupD d k

/-- Python `k in d`. -/
def memKeys {α : Type} (d : List (Str × α)) (k : Str) : Bool :=
  (lookupD d k).isSome

/-- Python `d[k] = v`: update the value in place if the key exists,
otherwise append the new binding at the end (insertion order). -/
def dictInsert {α : Type} : List (Str × α) → Str → α → List (Str × α)
  | [], k, v => [(k, v)]
  | (k', v') :: d, k, v =>
      if k' = k then (k', v) :: d else (k', v') :: dictInsert d k v

/-- Python `d.pop(k)`: remove the binding of `k` (first occurrence). -/
def dictPop {α : Type} : List (Str × α) → Str → List (Str × α)
  | [], _ => []
  | (k', v') :: d, k => if k' = k then d else (k', v') :: dictPop d k

/-- Python `{**d, **e}`: start from `d` and insert all of `e`'s bindings
in order, so `e`'s values win on shared keys. -/
def dictUnion {α : Type} (d e : List (Str × α)) : List (Str × α) :=
  e.foldl (fun acc p => dictInsert acc p.1 p.2) d

/-- The keys of an association list, in order. -/
def keysOf {α : Type} (d : List (Str × α)) : List Str := d.map Prod.fst

/-- The dictionary has no repeated keys (always true of a Python dict). -/
def keysNodup {α : Type} (d : List (Str × α)) : Prop := (keysOf d).Nodup

instance {α : Type} (d : List (Str × α)) : Decidable (keysNodup d) := by
  unfold keysNodup; infer_instance

/-- `convert_to_lower_unicode`: run the accent converter `ltt`, lower-case,
then delete spaces and braces (the regex `[\ \x7b\x7d]`). -/
def convert_to_lower_unicode (ltt : Str → Str) (text : Str) : Str :=
  (pyLower (ltt text)).filter (fun c => ¬ (c = ' ' ∨ c = lbr ∨ c = rbr))

/-- A bibliography record: entry type, identifier key, and ordered field
mapping (`BibEntry` in the source). -/
structure BibEntry where
  type : Str
  id_key : Str
  fields : List (Str × Str)
deriving DecidableEq, Repr, Inhabited

/-- The comparison-field list of `BibEntry.__eq__`, in source order. -/
def eqFieldNames : List Str := ["title".toList, "doi".toList, "isbn".toList]

/-- The value normalization inside `BibEntry.__eq__`: lower-case, and
for `title` additionally `convert_to_lower_unicode`. -/
def eqNorm (ltt : Str → Str) (field v : Str) : Str :=
  if field = "title".toList then convert_to_lower_unicode ltt (pyLower v)
  else pyLower v

/-- One iteration of the `for field in ("title", "doi", "isbn")` loop of
`BibEntry.__eq__`: when the field is present and non-empty in both
records, OR in equality of the normalized values. -/
def eqStep (ltt : Str → Str) (a b : BibEntry) (cond : Bool)
    (field : Str) : Bool :=
  match lookupD a.fields field, lookupD b.fields field with
  | some v1, some v2 =>
      if v1 ≠ [] ∧ v2 ≠ [] then
        cond || (eqNorm ltt field v1 == eqNorm ltt field v2)
      else cond
  | _, _ => cond

/-- `BibEntry.__eq__`: start from identifier equality and fold the
per-field check over `title`, `doi`, `isbn`. -/
def BibEntry.eq (ltt : Str → Str) (a b : BibEntry) : Bool :=
  eqFieldNames.foldl (eqStep ltt a b) (a.id_key == b.id_key)

/-- `BibEntry.merge`: the shorter identifier wins (`other`'s on a tie);
the field mapping is `{**other.fields, **self.fields}`. -/
def BibEntry.merge (self other : BibEntry) : BibEntry :=
  let id_key := if self.id_key.length < other.id_key.length then
      self.id_key else other.id_key
  { type := self.type, id_key := id_key,
    fields := dictUnion other.fields self.fields }

/-- A bibliography collection (`BibFile`): the ordered entry dictionary
and the verbatim non-entry lines.  The `fname` attribute of the source is
a file handle, not collection data, and is not modelled. -/
structure BibFile where
  bib_entries : List (Str × BibEntry)
  non_entry_lines : List Str
deriving DecidableEq, Repr, Inhabited

/-- `BibFile()`: the empty collection. -/
def BibFile.emptyFile : BibFile := ⟨[], []⟩

/-- Decimal digit character for a value below ten. -/
def digitChar : Nat → Char
  | 0 => '0' | 1 => '1' | 2 => '2' | 3 => '3' | 4 => '4'
  | 5 => '5' | 6 => '6' | 7 => '7' | 8 => '8' | _ => '9'

/-- Accumulator loop producing the decimal digits of `n`; the first
argument is fuel, always at least `n`, so it never runs out. -/
def natToDecGo : Nat → Nat → Str → Str
  | 0, _, acc => acc
  | _, 0, acc => acc
  | fuel + 1, n + 1, acc =>
      natToDecGo fuel ((n + 1) / 10) (digitChar ((n + 1) % 10) :: acc)

/-- Python `str(n)` for a natural number. -/
def natToDec (n : Nat) : Str := if n = 0 then ['0'] else natToDecGo n n []

/-- The suffix token `Copy` used to disambiguate colliding keys. -/
def copyTok : Str := "Copy".toList

/-- Candidate replacement key `key + "Copy" + str(i)`. -/
def copyCand (key : Str) (i : Nat) : Str := key ++ copyTok ++ natToDec i

/-- The `while new_key + str(index) in ...` search of `BibFile.__add__`,
with fuel: starting from `i`, return the first index whose candidate key
is absent.  Fuel `d.length + 1` always suffices because the candidate
keys are pairwise distinct. -/
def freshIdxGo (d : List (Str × BibEntry)) (key : Str) : Nat → Nat → Nat
  | 0, i => i
  | fuel + 1, i =>
      if memKeys d (copyCand key i) then freshIdxGo d key fuel (i + 1) else i

/-- First index `i ≥ 1` with `key + "Copy" + str(i)` not a key of `d`. -/
def freshIdx (d : List (Str × BibEntry)) (key : Str) : Nat :=
  freshIdxGo d key (d.length + 1) 1

/-- The synthesized disambiguation key of `BibFile.__add__`. -/
def copyKey (d : List (Str × BibEntry)) (key : Str) : Str :=
  copyCand key (freshIdx d key)

/-- One iteration of the `BibFile.__add__` loop over `other`'s items:
absent key → insert; colliding equal records → merge and store under the
merged identifier; colliding unequal records → insert `other`'s record
under the synthesized `Copy` key (the source prints a warning and never
raises). -/
def addStep (ltt : Str → Str) (nb : BibFile) (kv : Str × BibEntry) :
    BibFile :=
  match lookupD nb.bib_entries kv.1 with
  | some existing =>
      if BibEntry.eq ltt kv.2 existing then
        { nb with bib_entries := (dictInsert nb.bib_entries
            (BibEntry.merge kv.2 existing).id_key
            (BibEntry.merge kv.2 existing)) }
      else
        { nb with bib_entries := (dictInsert nb.bib_entries
            (copyKey nb.bib_entries kv.1) kv.2) }
  | none => { nb with bib_entries := dictInsert nb.bib_entries kv.1 kv.2 }

/-- `BibFile.__add__`: concatenate the non-entry lines, copy `self`'s
entries, then fold the collision-resolving step over `other`'s items. -/
def BibFile.add (ltt : Str → Str) (a b : BibFile) : BibFile :=
  b.bib_entries.foldl (addStep ltt)
    ⟨a.bib_entries, a.non_entry_lines ++ b.non_entry_lines⟩

/-- `BibFile.__radd__`: a falsy left operand yields `self`; any other
left operand raises `ValueError`. -/
def BibFile.radd (self : BibFile) (otherTruthy : Bool) :
    Except Str BibFile :=
  if otherTruthy then .error ("Cannot add bib files".toList) else .ok self

/-- Entry lookup `self.bib_entries[key]` (total with an unreachable
default; the source raises `KeyError` on a missing key). -/
def getEntry (bf : BibFile) (k : Str) : BibEntry :=
  (lookupD bf.bib_entries k).getD default

/-- Does the record at index `i` equal the record at `index`
(`values[index] == values[i]` in the scan of `find_duplicated_entries`)? -/
def dupHit (ltt : Str → Str) (values : List BibEntry) (index i : Nat) :
    Bool :=
  BibEntry.eq ltt (values.getD index default) (values.getD i default)

/-- The inner scan of `find_duplicated_entries`: pop the queue head,
collect the remaining indices whose record is equal to the head's record,
and recurse on the rest; groups of size one are discarded.  The fuel
argument is at least the queue length, so it never runs out. -/
def dupGroupsGo (ltt : Str → Str) (values : List BibEntry) :
    Nat → List Nat → List (List Nat)
  | 0, _ => []
  | _ + 1, [] => []
  | fuel + 1, index :: rest =>
      if (index :: rest.filter (dupHit ltt values index)).length > 1 then
        (index :: rest.filter (dupHit ltt values index)) ::
          dupGroupsGo ltt values fuel
            (rest.filter (fun i => ¬ dupHit ltt values index i))
      else
        dupGroupsGo ltt values fuel
          (rest.filter (fun i => ¬ dupHit ltt values index i))

/-- `find_duplicated_entries`: group the entry indices by record
equality, then map each group back to the snapshot of the keys. -/
def findDuplicated (ltt : Str → Str) (bf : BibFile) : List (List Str) :=
  (dupGroupsGo ltt (bf.bib_entries.map Prod.snd)
      (List.range (keysOf bf.bib_entries).length).length
      (List.range (keysOf bf.bib_entries).length)).map
    (fun g => g.map (fun i => (keysOf bf.bib_entries).getD i []))

/-- One duplicate group of `merge_duplicated_entries`: fold the group's
records with `merge`, record `key -> merged id` for every key of the
group, pop every key from the entries, and insert the merged record
under its identifier. -/
def processGroup (st : BibFile × List (Str × Str)) (group : List Str) :
    BibFile × List (Str × Str) :=
  match group with
  | [] => st
  | g0 :: grest =>
      let bib := st.1
      let newEntry := grest.foldl
        (fun e k => BibEntry.merge e (getEntry bib k)) (getEntry bib g0)
      let mk := (g0 :: grest).foldl
        (fun m k => dictInsert m k newEntry.id_key) st.2
      let entries := (g0 :: grest).foldl (fun d k => dictPop d k)
        bib.bib_entries
      ({ bib with bib_entries := dictInsert entries newEntry.id_key newEntry },
       mk)

/-- `merge_duplicated_entries`: process every duplicate group, returning
the updated collection and the accumulated rename map. -/
def mergeDuplicated (ltt : Str → Str) (bf : BibFile) :
    BibFile × List (Str × Str) :=
  (findDuplicated ltt bf).foldl processGroup (bf, [])

/-- The merged record a duplicate group folds to, read off the original
collection (`new_entry` in `merge_duplicated_entries`). -/
def groupFinal (bf : BibFile) : List Str → BibEntry
  | [] => default
  | g0 :: grest =>
      grest.foldl (fun e k => BibEntry.merge e (getEntry bf k))
        (getEntry bf g0)

/-- Strip `pat` from the front of a text, or fail (regex literal match
at the current position). -/
def dropPre : Str → Str → Option Str
  | [], s => some s
  | _ :: _, [] => none
  | p :: ps, c :: cs => if p = c then dropPre ps cs else none

/-- Split at the first occurrence of the character `stop` (the lazy
regex idiom `[^X]*?X`): the part before it and the part after it. -/
def splitAtFirst (stop : Char) : Str → Option (Str × Str)
  | [] => none
  | c :: rest =>
      if c = stop then some ([], rest)
      else match splitAtFirst stop rest with
        | some (a, b) => some (c :: a, b)
        | none => none

/-- Substring containment (Python `pat in line`). -/
def containsTok (hay pat : Str) : Bool :=
  match hay with
  | [] => (dropPre pat ([] : Str)).isSome
  | _ :: rest => (dropPre pat hay).isSome || containsTok rest pat

/-- The character class `[\n\r\ ]` of the whitespace-collapsing rewrite
in `parse_entry`. -/
def isNlCrSp (c : Char) : Bool :=
  c.toNat = 10 || c.toNat = 13 || c.toNat = 32

/-- `re.sub("[\n\r\ ]+", " ", field)`: each maximal run of the class is
replaced by a single space. -/
def collapseWsGo : Bool → Str → Str
  | _, [] => []
  | inRun, c :: rest =>
      if isNlCrSp c then
        if inRun then collapseWsGo true rest
        else ' ' :: collapseWsGo true rest
      else c :: collapseWsGo false rest

/-- Whitespace-run collapsing over a whole value. -/
def collapseWs (s : Str) : Str := collapseWsGo false s

/-- `re.fullmatch("\x7b.*\x7d", field) or re.fullmatch('".*"', field)`
followed by `field[1:-1]`: strip one exactly-enclosing layer of braces
or double quotes (`.` does not cross a newline). -/
def unwrapOnce (s : Str) : Str :=
  match s.head?, s.getLast? with
  | some h, some l =>
      if 2 ≤ s.length ∧ ((h = lbr ∧ l = rbr) ∨ (h = '"' ∧ l = '"')) ∧
          (s.drop 1).dropLast.all (fun c => c ≠ '\n') then
        (s.drop 1).dropLast
      else s
  | _, _ => s

/-- `" ".join(i + "." for i in run)`: each initial followed by a period,
separated by single spaces. -/
def dotted : Str → Str
  | [] => []
  | [c] => [c, '.']
  | c :: d :: rest => c :: '.' :: ' ' :: dotted (d :: rest)

/-- Scanner state for the author-initials rewrite
`re.sub(r"\s+([A-Z]+)(\s|$)", ...)`: outside any candidate match
(`st0`), inside the leading whitespace run (`stW`, buffering it), or
inside the capital-letter run (`stU`).  Buffers are emitted verbatim
when the candidate fails; a later match cannot start inside a failed
buffer, because the character that made the candidate fail also makes
every restart inside the buffer fail. -/
inductive AuthScanSt where
  | st0 : AuthScanSt
  | stW : Str → AuthScanSt
  | stU : Str → Str → AuthScanSt
deriving DecidableEq, Repr

/-- End-of-text behavior of the author scanner: a pending
capital-letter run matches with `$` as group two. -/
def authorFlush : AuthScanSt → Str
  | .st0 => []
  | .stW ws => ws
  | .stU _ u => ' ' :: dotted u

/-- One-pass scanner equivalent to the regex engine's left-to-right
non-overlapping scan for `\s+([A-Z]+)(\s|$)` with replacement a single
space, the dotted initials, and the captured following character. -/
def authorGo : AuthScanSt → Str → Str
  | st, [] => authorFlush st
  | .st0, c :: rest =>
      if isPySpace c then authorGo (.stW [c]) rest
      else c :: authorGo .st0 rest
  | .stW ws, c :: rest =>
      if isPySpace c then authorGo (.stW (ws ++ [c])) rest
      else if isUpperAZ c then authorGo (.stU ws [c]) rest
      else ws ++ c :: authorGo .st0 rest
  | .stU ws u, c :: rest =>
      if isUpperAZ c then authorGo (.stU ws (u ++ [c])) rest
      else if isPySpace c then ' ' :: dotted u ++ c :: authorGo .st0 rest
      else ws ++ u ++ c :: authorGo .st0 rest

/-- `re.sub(r"\s+([A-Z]+)(\s|$)", ...)` of `parse_entry`'s author
normalization. -/
def authorSub (s : Str) : Str := authorGo .st0 s

/-- The per-value processing of `BibEntry.parse_entry`: strip, drop one
trailing comma, collapse whitespace runs, strip one enclosing
brace/quote layer, and for the `author` field apply the initials
normalization.  (The caller skips blank tokens, so the value is never
empty; the source would raise `IndexError` there.) -/
def processFieldValue (entryKey element : Str) : Str :=
  let field := pyStrip element
  let field := match field.getLast? with
    | some c => if c = ',' then field.dropLast else field
    | none => field
  let field := collapseWs field
  let field := unwrapOnce field
  if entryKey = "author".toList then authorSub field else field

/-- The literal token `\cite` followed by an opening brace. -/
def citeOpen : Str := '\\' :: "cite".toList ++ [lbr]

/-- The literal token `\citenum` followed by an opening brace. -/
def citenumOpen : Str := '\\' :: "citenum".toList ++ [lbr]

/-- The literal token `\citeauthor` followed by an opening brace. -/
def citeauthorOpen : Str := '\\' :: "citeauthor".toList ++ [lbr]

/-- The suffix of the first pass of `adapt_citations` after the captured
separator `g1`: `(\\cite\x7b[^\x7d]*?\x7d)([\.\,])(\s*)`.  Returns the
full replacement text `g3 ++ g2 ++ g1 ++ g4`, the last character of the
matched region (for the next look-behind), and the remaining text. -/
def pass1Body (g1 : Char) (t : Str) : Option (Str × Char × Str) :=
  match dropPre citeOpen t with
  | none => none
  | some t1 =>
      match splitAtFirst rbr t1 with
      | none => none
      | some (body, t2) =>
          match t2 with
          | [] => none
          | g3 :: t3 =>
              if g3 = '.' ∨ g3 = ',' then
                let g4 := t3.takeWhile isPySpace
                let rest := t3.dropWhile isPySpace
                let lastc := match g4.getLast? with
                  | some c => c
                  | none => g3
                some (g3 :: (citeOpen ++ body ++ [rbr]) ++ g1 :: g4,
                      lastc, rest)
              else none

/-- A match of `(?<![\.\,])\ *([\ \n])(\\cite\x7b[^\x7d]*?\x7d)([\.\,])(\s*)`
at the current position, `prev` being the character before it in the
subject text.  The greedy `\ *` leaves the last space (or a newline) as
the captured separator `g1`; `\ *` itself is outside every group and is
dropped from the replacement. -/
def pass1MatchAt (prev : Option Char) (s : Str) : Option (Str × Char × Str) :=
  if prev = some '.' ∨ prev = some ',' then none
  else
    match s.dropWhile (fun c => c = ' ') with
    | '\n' :: t' => pass1Body '\n' t'
    | t => if (s.takeWhile (fun c => c = ' ')).length ≥ 1 then
        pass1Body ' ' t else none

/-- The left-to-right non-overlapping `re.sub` scan of the first pass of
`adapt_citations`, with enough fuel to process the whole text. -/
def pass1Go : Nat → Option Char → Str → Str
  | 0, _, s => s
  | _ + 1, _, [] => []
  | fuel + 1, prev, c :: rest =>
      match pass1MatchAt prev (c :: rest) with
      | some (repl, lastc, after) => repl ++ pass1Go fuel (some lastc) after
      | none => c :: pass1Go fuel (some c) rest

/-- First pass of `adapt_citations`: move a citation that sits before a
period or comma to just after it. -/
def adaptPass1 (s : Str) : Str := pass1Go (s.length + 1) none s

/-- A match of `([Rr]efs?\.)([\ \n])\\cite\x7b([^\x7d]*?)\x7d` at the
current position: returns the replacement (with `\cite` turned into
`\citenum`) and the remaining text. -/
def pass2MatchAt (s : Str) : Option (Str × Str) :=
  match s with
  | [] => none
  | c :: t =>
      if c = 'R' ∨ c = 'r' then
        match dropPre "ef".toList t with
        | none => none
        | some t1 =>
            let tryTail := fun (g1tail t2 : Str) =>
              match t2 with
              | '.' :: g2 :: t3 =>
                  if g2 = ' ' ∨ g2 = '\n' then
                    match dropPre citeOpen t3 with
                    | some t4 =>
                        match splitAtFirst rbr t4 with
                        | some (body, rest) =>
                            some ((c :: "ef".toList ++ g1tail ++ ['.', g2]) ++
                                  ('\\' :: "citenum".toList ++ [lbr]) ++
                                  body ++ [rbr], rest)
                        | none => none
                    | none => none
                  else none
              | _ => none
            match t1 with
            | 's' :: t2 =>
                match tryTail ['s'] t2 with
                | some r => some r
                | none => tryTail [] t1
            | _ => tryTail [] t1
      else none

/-- The `re.sub` scan of the second pass of `adapt_citations`. -/
def pass2Go : Nat → Str → Str
  | 0, s => s
  | _ + 1, [] => []
  | fuel + 1, c :: rest =>
      match pass2MatchAt (c :: rest) with
      | some (repl, after) => repl ++ pass2Go fuel after
      | none => c :: pass2Go fuel rest

/-- Second pass of `adapt_citations`: a `\cite` right after `Ref.` or
`Refs.` becomes `\citenum`. -/
def adaptPass2 (s : Str) : Str := pass2Go (s.length + 1) s

/-- `LatexFile.adapt_citations`: the two passes in source order. -/
def adaptCitations (s : Str) : Str := adaptPass2 (adaptPass1 s)

/-- A match of `\\(cite|citenum|citeauthor)\x7b` at the current
position; returns the number of characters consumed (the alternation is
tried left to right, exactly as the regex engine does). -/
def openerAt (s : Str) : Option Nat :=
  if (dropPre citeOpen s).isSome then some citeOpen.length
  else if (dropPre citenumOpen s).isSome then some citenumOpen.length
  else if (dropPre citeauthorOpen s).isSome then some citeauthorOpen.length
  else none

/-- Split a text at the first occurrence of `pat` (the lazy `[\S\s]*?`
followed by the literal key): the part before and the part after. -/
def splitOnTok (pat : Str) : Str → Option (Str × Str)
  | [] => match dropPre pat ([] : Str) with
    | some rest => some ([], rest)
    | none => none
  | c :: cs =>
      match dropPre pat (c :: cs) with
      | some rest => some ([], rest)
      | none =>
          match splitOnTok pat cs with
          | some (a, b) => some (c :: a, b)
          | none => none

/-- The `re.sub` scan of one `replace_cite_entries` iteration for the
pair `old -> new`: the pattern `(\\(cite|citenum|citeauthor)\x7b[\S\s]*?)old`
matches from a citation opener, lazily up to the first later occurrence
of `old` (the closing brace does not stop it), and the replacement keeps
group one and substitutes `new` for `old`. -/
def subCiteGo (old new : Str) : Nat → Str → Str
  | 0, s => s
  | _ + 1, [] => []
  | fuel + 1, c :: rest =>
      match openerAt (c :: rest) with
      | some n =>
          match splitOnTok old ((c :: rest).drop n) with
          | some (gap, after) =>
              ((c :: rest).take n ++ gap ++ new) ++ subCiteGo old new fuel after
          | none => c :: subCiteGo old new fuel rest
      | none => c :: subCiteGo old new fuel rest

/-- One `re.sub` of `replace_cite_entries` for a single rename pair. -/
def subCite (old new : Str) (s : Str) : Str :=
  subCiteGo old new (s.length + 1) s

/-- `LatexFile.replace_cite_entries`: iterate the per-pair substitution
over the rename map in order. -/
def replaceCiteEntries (m : List (Str × Str)) (s : Str) : Str :=
  m.foldl (fun t p => subCite p.1 p.2 t) s

/-- Does any citation opener occur anywhere in the text? -/
def hasOpener : Str → Bool
  | [] => false
  | c :: rest => (openerAt (c :: rest)).isSome || hasOpener rest

/-- The literal token `\section`. -/
def secTok : Str := '\\' :: "section".toList

/-- The anchored heading pattern `\\section\*?\x7b([\s\S]*?)\x7d` of
`extract_sections` (`re.match`, so it must start the line): returns the
captured title. -/
def secMatch (l : Str) : Option Str :=
  match dropPre secTok l with
  | none => none
  | some t =>
      match (match t with | '*' :: t' => t' | _ => t) with
      | c :: t' =>
          if c = lbr then (splitAtFirst rbr t').map Prod.fst else none
      | [] => none

/-- The anchored pattern `(acknowledg|conflicts? of interest?).*` applied
to the stripped, lower-cased title. -/
def ackMatch (s : Str) : Bool :=
  (dropPre "acknowledg".toList s).isSome ||
  (dropPre "conflicts of interes".toList s).isSome ||
  (dropPre "conflict of interes".toList s).isSome

/-- The literal token `\end`. -/
def endTok : Str := '\\' :: "end".toList

/-- The literal token `document`. -/
def docTok : Str := "document".toList

/-- The literal token `\bibliography`. -/
def bibTok : Str := '\\' :: "bibliography".toList

/-- The line loop of `extract_sections`: before the first
nonempty-titled heading, lines are dropped (an empty-titled heading is
skipped as noise); the start heading is emitted numbered; afterwards a
line containing `\end` and `document` stops the loop, a line containing
`\bibliography` is dropped, a heading is re-emitted (`\section*` for an
acknowledgment/conflict-of-interest title when `unnumbered` is set,
`\section` otherwise) and any other line is kept verbatim. -/
def esGo (unnumbered : Bool) : Bool → List Str → List Str
  | _, [] => []
  | false, l :: rest =>
      match secMatch l with
      | some t =>
          if pyStrip t = [] then esGo unnumbered false rest
          else (secTok ++ lbr :: (t ++ [rbr])) :: esGo unnumbered true rest
      | none => esGo unnumbered false rest
  | true, l :: rest =>
      if containsTok l endTok && containsTok l docTok then []
      else if containsTok l bibTok then esGo unnumbered true rest
      else
        match secMatch l with
        | some t =>
            if unnumbered && ackMatch (pyLower (pyStrip t)) then
              (secTok ++ '*' :: lbr :: (t ++ [rbr])) :: esGo unnumbered true rest
            else (secTok ++ lbr :: (t ++ [rbr])) :: esGo unnumbered true rest
        | none => l :: esGo unnumbered true rest

/-- Python `str.splitlines` for newline-separated text, with an
accumulator holding the current line reversed; a final empty segment
(text ending in a newline) produces no line. -/
def splitNlGo (cur : Str) : Str → List Str
  | [] => if cur = [] then [] else [cur.reverse]
  | c :: rest =>
      if c = '\n' then cur.reverse :: splitNlGo [] rest
      else splitNlGo (c :: cur) rest

/-- Python `str.splitlines`. -/
def splitNl (s : Str) : List Str := splitNlGo [] s

/-- `"\n".join`. -/
def joinNl : List Str → Str
  | [] => []
  | [l] => l
  | l :: l2 :: rest => l ++ '\n' :: joinNl (l2 :: rest)

/-- `LatexFile.extract_sections` over the document text. -/
def extractSections (unnumbered : Bool) (content : Str) : Str :=
  joinNl (esGo unnumbered false (splitNl content))

/-! ### Dictionary lemmas -/

theorem lookupD_insert_self {α : Type} (d : List (Str × α)) (k : Str)
    (v : α) : lookupD (dictInsert d k v) k = some v := by
  induction d with
  | nil => simp [dictInsert, lookupD]
  | cons p d ih =>
    by_cases h : p.1 = k
    · cases p; simp_all [dictInsert, lookupD]
    · cases p; simp_all [dictInsert, lookupD]

theorem lookupD_insert_ne {α : Type} (d : List (Str × α)) (k k' : Str)
    (v : α) (h : k' ≠ k) :
    lookupD (dictInsert d k v) k' = lookupD d k' := by
  have h2 : ¬ k = k' := Ne.symm h
  induction d with
  | nil => simp [dictInsert, lookupD, h2]
  | cons p d ih =>
    cases p with
    | mk k0 v0 =>
      by_cases h0 : k0 = k
      · subst h0
        simp [dictInsert, lookupD, h2]
      · simp [dictInsert, lookupD, h0, ih]

theorem lookupD_pop_ne {α : Type} (d : List (Str × α)) (k k' : Str)
    (h : k' ≠ k) : lookupD (dictPop d k) k' = lookupD d k' := by
  have h2 : ¬ k = k' := Ne.symm h
  induction d with
  | nil => simp [dictPop]
  | cons p d ih =>
    cases p with
    | mk k0 v0 =>
      by_cases h0 : k0 = k
      · subst h0
        simp [dictPop, lookupD, h2]
      · simp [dictPop, lookupD, h0, ih]

theorem lookupD_eq_none_of_not_mem {α : Type} (e : List (Str × α))
    (k : Str) (h : k ∉ keysOf e) : lookupD e k = none := by
  induction e with
  | nil => simp [lookupD]
  | cons p e ih =>
    cases p with
    | mk k0 v0 =>
      simp only [keysOf, List.map_cons, List.mem_cons] at h
      push_neg at h
      simp only [lookupD]
      rw [if_neg (fun he => h.1 he.symm)]
      exact ih h.2

theorem keysNodup_tail {α : Type} (p : Str × α) (e : List (Str × α))
    (h : keysNodup (p :: e)) : keysNodup e := by
  unfold keysNodup keysOf at h ⊢
  rw [List.map_cons] at h
  exact h.of_cons

theorem keysNodup_head_not_mem {α : Type} (p : Str × α)
    (e : List (Str × α)) (h : keysNodup (p :: e)) : p.1 ∉ keysOf e := by
  unfold keysNodup keysOf at h
  rw [List.map_cons] at h
  exact (List.nodup_cons.mp h).1

theorem lookupD_union {α : Type} (d e : List (Str × α)) (k : Str)
    (he : keysNodup e) :
    lookupD (dictUnion d e) k = (lookupD e k).or (lookupD d k) := by
  induction e generalizing d with
  | nil => simp [dictUnion, lookupD]
  | cons p e ih =>
    cases p with
    | mk k0 v0 =>
      have hstep : dictUnion d ((k0, v0) :: e) =
          dictUnion (dictInsert d k0 v0) e := rfl
      rw [hstep, ih _ (keysNodup_tail _ _ he)]
      by_cases h : k0 = k
      · subst h
        have hnone : lookupD e k0 = none :=
          lookupD_eq_none_of_not_mem _ _ (keysNodup_head_not_mem _ _ he)
        simp [hnone, lookupD, lookupD_insert_self]
      · simp [lookupD, h, lookupD_insert_ne _ _ _ _ (fun he2 => h he2.symm)]

/-! ### C1: record equality -/

/-- One field check following claim C1's words: the field is present and
non-empty in both records and equal, `doi`/`isbn` compared
case-SENSITIVELY, `title` after accent normalization, brace stripping
and lower-casing. -/
def claimC1FieldEq (ltt : Str → Str) (field : Str) (a b : BibEntry) :
    Bool :=
  match lookupD a.fields field, lookupD b.fields field with
  | some v1, some v2 =>
      decide (v1 ≠ []) && decide (v2 ≠ []) &&
      (if field = "title".toList then
        pyLower ((ltt v1).filter (fun c => ¬ (c = lbr ∨ c = rbr))) ==
          pyLower ((ltt v2).filter (fun c => ¬ (c = lbr ∨ c = rbr)))
      else v1 == v2)
  | _, _ => false

/-- Record equality exactly as claim C1 states it. -/
def claimC1Eq (ltt : Str → Str) (a b : BibEntry) : Bool :=
  (a.id_key == b.id_key) ||
  claimC1FieldEq ltt ("title".toList) a b ||
  claimC1FieldEq ltt ("doi".toList) a b ||
  claimC1FieldEq ltt ("isbn".toList) a b

/-- One field check of the amended claim: the field is present and
non-empty in both records, with `doi`/`isbn` compared after
lower-casing (case-insensitively) and `title` compared after
lower-casing, accent normalization and removal of spaces and braces. -/
def amendC1FieldEq (ltt : Str → Str) (field : Str) (a b : BibEntry) :
    Bool :=
  match lookupD a.fields field, lookupD b.fields field with
  | some v1, some v2 =>
      decide (v1 ≠ []) && decide (v2 ≠ []) &&
      (eqNorm ltt field v1 == eqNorm ltt field v2)
  | _, _ => false

/-- Record equality as amended: identifiers match, or one of `title`,
`doi`, `isbn` is present, non-empty and equal under the code's
normalization. -/
def amendC1Eq (ltt : Str → Str) (a b : BibEntry) : Bool :=
  (a.id_key == b.id_key) ||
  amendC1FieldEq ltt ("title".toList) a b ||
  amendC1FieldEq ltt ("doi".toList) a b ||
  amendC1FieldEq ltt ("isbn".toList) a b

theorem eqStep_eq_or (ltt : Str → Str) (a b : BibEntry) (cond : Bool)
    (field : Str) :
    eqStep ltt a b cond field = (cond || amendC1FieldEq ltt field a b) := by
  unfold eqStep amendC1FieldEq
  cases lookupD a.fields field with
  | none => simp
  | some v1 =>
    cases lookupD b.fields field with
    | none => simp
    | some v2 =>
      by_cases h1 : v1 = []
      · simp [h1]
      · by_cases h2 : v2 = []
        · simp [h2]
        · simp [h1, h2]

/-- Claim C1 (counterexample): two records with distinct identifiers
whose only shared field is a `doi` differing exactly in letter case are
equal for the code (it lower-cases `doi` before comparing), while the
claim's case-sensitive `doi` comparison declares them unequal. -/
theorem c1_counterexample :
    BibEntry.eq (fun s => s)
        ⟨"article".toList, "k1".toList, [("doi".toList, "ABC".toList)]⟩
        ⟨"article".toList, "k2".toList, [("doi".toList, "abc".toList)]⟩
      = true ∧
    claimC1Eq (fun s => s)
        ⟨"article".toList, "k1".toList, [("doi".toList, "ABC".toList)]⟩
        ⟨"article".toList, "k2".toList, [("doi".toList, "abc".toList)]⟩
      = false := by
  constructor
  · rfl
  · rfl

/-- Claim C1 (amended): `BibEntry.__eq__` holds exactly when the
identifiers match, or one of `title`, `doi`, `isbn` is present and
non-empty in both records and equal after lower-casing — `title`
additionally passed through accent normalization and removal of spaces
and braces (`convert_to_lower_unicode`). -/
theorem c1_theorem (ltt : Str → Str) (a b : BibEntry) :
    BibEntry.eq ltt a b = amendC1Eq ltt a b := by
  unfold BibEntry.eq eqFieldNames amendC1Eq
  simp only [List.foldl, eqStep_eq_or, Bool.or_assoc]

/-! ### C2: pairwise merge -/

/-- Claim C2: `merge(a, b)` returns a record keyed by the textually
shorter identifier (each strict case stated; the result is always one of
the two), whose field mapping is `b`'s fields overlaid by `a`'s: on any
key, `a`'s value wins when present, otherwise `b`'s value is used.  The
operation builds a new record, leaving both operands untouched (the
embedding is pure, as is the source, which only reads its operands). -/
theorem c2_theorem (a b : BibEntry) (k : Str)
    (ha : keysNodup a.fields) :
    (a.id_key.length < b.id_key.length →
        (BibEntry.merge a b).id_key = a.id_key) ∧
    (b.id_key.length < a.id_key.length →
        (BibEntry.merge a b).id_key = b.id_key) ∧
    ((BibEntry.merge a b).id_key = a.id_key ∨
        (BibEntry.merge a b).id_key = b.id_key) ∧
    lookupD (BibEntry.merge a b).fields k =
      (lookupD a.fields k).or (lookupD b.fields k) := by
  refine ⟨?_, ?_, ?_, ?_⟩
  · intro h; simp [BibEntry.merge, h]
  · intro h
    have h2 : ¬ a.id_key.length < b.id_key.length := by omega
    simp [BibEntry.merge, h2]
  · by_cases h : a.id_key.length < b.id_key.length
    · exact Or.inl (by simp [BibEntry.merge, h])
    · exact Or.inr (by simp [BibEntry.merge, h])
  · show lookupD (dictUnion b.fields a.fields) k = _
    exact lookupD_union b.fields a.fields k ha

/-- Witness for C2 at the records `kk -> [x: 1, y: 2]` and
`k -> [y: 9, z: 3]`: the result is keyed `k` and its `y` value is `2`
(`a` wins on the overlap). -/
theorem c2_witness :
    keysNodup
      (([("x".toList, "1".toList), ("y".toList, "2".toList)]) :
        List (Str × Str)) ∧
    (BibEntry.merge
        ⟨"a".toList, "kk".toList,
          [("x".toList, "1".toList), ("y".toList, "2".toList)]⟩
        ⟨"a".toList, "k".toList,
          [("y".toList, "9".toList), ("z".toList, "3".toList)]⟩).id_key =
      "k".toList ∧
    lookupD (BibEntry.merge
        ⟨"a".toList, "kk".toList,
          [("x".toList, "1".toList), ("y".toList, "2".toList)]⟩
        ⟨"a".toList, "k".toList,
          [("y".toList, "9".toList), ("z".toList, "3".toList)]⟩).fields
        ("y".toList) =
      some ("2".toList) := by
  refine ⟨by decide, ?_, ?_⟩
  · exact (c2_theorem _ _ ("y".toList) (by decide)).2.1 (by decide)
  · rw [(c2_theorem _ _ ("y".toList) (by decide)).2.2.2]
    rfl

/-! ### C6: identity of combination -/

/-- Claim C6: combining a collection with the empty collection on the
right yields the collection itself (entries and preamble lines
preserved), and a falsy left operand handled by `__radd__` also yields
the collection itself. -/
theorem c6_theorem (ltt : Str → Str) (c : BibFile) :
    BibFile.add ltt c BibFile.emptyFile = c ∧
    BibFile.radd c false = Except.ok c := by
  constructor
  · cases c with
    | mk e l => simp [BibFile.add, BibFile.emptyFile, List.foldl]
  · rfl

/-! ### C3: the key = id_key invariant under combination -/

/-- The data-model invariant: every key of the entry dictionary equals
the `id_key` of the record stored under it. -/
def keyConsistent (bf : BibFile) : Prop :=
  ∀ p ∈ bf.bib_entries, p.2.id_key = p.1

instance (bf : BibFile) : Decidable (keyConsistent bf) := by
  unfold keyConsistent; infer_instance

theorem eq_of_id_eq (ltt : Str → Str) (a b : BibEntry)
    (h : a.id_key = b.id_key) : BibEntry.eq ltt a b = true := by
  unfold BibEntry.eq eqFieldNames
  simp [List.foldl, eqStep_eq_or, h]

theorem mem_of_lookupD {α : Type} (d : List (Str × α)) (k : Str) (v : α)
    (h : lookupD d k = some v) : (k, v) ∈ d := by
  induction d with
  | nil => simp [lookupD] at h
  | cons p d ih =>
    cases p with
    | mk k0 v0 =>
      unfold lookupD at h
      by_cases h0 : k0 = k
      · rw [if_pos h0] at h
        cases h
        exact h0 ▸ List.mem_cons_self _ _
      · rw [if_neg h0] at h
        exact List.mem_cons_of_mem _ (ih h)

theorem mem_dictInsert {α : Type} (d : List (Str × α)) (k : Str) (v : α)
    (p : Str × α) (h : p ∈ dictInsert d k v) : p = (k, v) ∨ p ∈ d := by
  induction d with
  | nil => simp [dictInsert] at h; exact Or.inl h
  | cons q d ih =>
    cases q with
    | mk k0 v0 =>
      unfold dictInsert at h
      by_cases h0 : k0 = k
      · rw [if_pos h0] at h
        rcases List.mem_cons.mp h with h | h
        · exact Or.inl (by rw [h, h0])
        · exact Or.inr (List.mem_cons_of_mem _ h)
      · rw [if_neg h0] at h
        rcases List.mem_cons.mp h with h | h
        · exact Or.inr (h ▸ List.mem_cons_self _ _)
        · rcases ih h with h | h
          · exact Or.inl h
          · exact Or.inr (List.mem_cons_of_mem _ h)

/-- Claim C3 (counterexample): combining two collections that collide on
key `shared` with records that are NOT equal (the second record's own
identifier is `sharedX`) stores the second record under the synthesized
key `sharedCopy1` without updating its `id_key`, so the produced
collection maps the key `sharedCopy1` to a record whose `id_key` is
`sharedX` — the claimed invariant fails exactly on the Copy-suffixed
insertion. -/
theorem c3_counterexample :
    lookupD (BibFile.add (fun s => s)
        ⟨[("shared".toList,
            ⟨"a".toList, "shared".toList, [("title".toList, "T1".toList)]⟩)], []⟩
        ⟨[("shared".toList,
            ⟨"a".toList, "sharedX".toList, [("title".toList, "T2".toList)]⟩)], []⟩).bib_entries
      ("sharedCopy1".toList) =
      some ⟨"a".toList, "sharedX".toList, [("title".toList, "T2".toList)]⟩ ∧
    ¬ keyConsistent (BibFile.add (fun s => s)
        ⟨[("shared".toList,
            ⟨"a".toList, "shared".toList, [("title".toList, "T1".toList)]⟩)], []⟩
        ⟨[("shared".toList,
            ⟨"a".toList, "sharedX".toList, [("title".toList, "T2".toList)]⟩)], []⟩) := by
  constructor
  · decide
  · decide

/-- Claim C3 (amended): if both operands satisfy the key = id_key
invariant, the combined collection satisfies it as well.  Under these
premises colliding records always compare equal through their
identifiers, so the Copy-suffix branch never runs; a Copy-suffixed
insertion — reachable only from an operand that already violates the
invariant — keeps the record's old `id_key` and need not satisfy it. -/
theorem c3_theorem (ltt : Str → Str) (a b : BibFile)
    (hka : keyConsistent a) (hkb : keyConsistent b) :
    keyConsistent (BibFile.add ltt a b) := by
  unfold BibFile.add
  have main : ∀ (l : List (Str × BibEntry)) (nb : BibFile),
      (∀ p ∈ l, p.2.id_key = p.1) → keyConsistent nb →
      keyConsistent (l.foldl (addStep ltt) nb) := by
    intro l
    induction l with
    | nil => intro nb _ h2; exact h2
    | cons kv l ih =>
      intro nb h1 h2
      simp only [List.foldl]
      apply ih
      · intro p hp; exact h1 p (List.mem_cons_of_mem _ hp)
      · have hkv : kv.2.id_key = kv.1 := h1 kv (List.mem_cons_self _ _)
        unfold addStep
        split
        · rename_i existing hl
          have hex : existing.id_key = kv.1 :=
            h2 (kv.1, existing) (mem_of_lookupD _ _ _ hl)
          have heq : BibEntry.eq ltt kv.2 existing = true :=
            eq_of_id_eq ltt kv.2 existing (hkv.trans hex.symm)
          rw [if_pos heq]
          intro p hp
          rcases mem_dictInsert _ _ _ _ hp with h | h
          · rw [h]
          · exact h2 p h
        · intro p hp
          rcases mem_dictInsert _ _ _ _ hp with h | h
          · rw [h]; exact hkv
          · exact h2 p h
  exact main b.bib_entries ⟨a.bib_entries, a.non_entry_lines ++ b.non_entry_lines⟩
    (fun p hp => hkb p hp) (fun p hp => hka p hp)

/-- Witness for the amended C3 at two invariant-satisfying collections
that collide on `shared`: the hypotheses are checked by evaluation and
the combined collection satisfies the invariant. -/
theorem c3_witness :
    keyConsistent
      ⟨[("shared".toList,
          ⟨"a".toList, "shared".toList, [("title".toList, "T1".toList)]⟩)], []⟩ ∧
    keyConsistent
      ⟨[("shared".toList,
          ⟨"a".toList, "shared".toList, [("title".toList, "T2".toList)]⟩)], []⟩ ∧
    keyConsistent (BibFile.add (fun s => s)
      ⟨[("shared".toList,
          ⟨"a".toList, "shared".toList, [("title".toList, "T1".toList)]⟩)], []⟩
      ⟨[("shared".toList,
          ⟨"a".toList, "shared".toList, [("title".toList, "T2".toList)]⟩)], []⟩) :=
  ⟨by decide, by decide,
   c3_theorem (fun s => s) _ _ (by decide) (by decide)⟩

/-! ### C7: idempotence of citation-punctuation normalization -/

/-- Claim C7 is refuted by the code: on the text
`a \cite(x). \cite(y).` (with braces), the first run moves only the
first citation — its trailing-whitespace group `(\s*)` greedily consumes
the space that the second citation's match would need as its captured
separator — producing `a.\cite(x)  \cite(y).`; the second run then also
moves the second citation, producing `a.\cite(x).\cite(y) `.  Running
the pass twice therefore differs from running it once. -/
theorem c7_theorem :
    adaptCitations (adaptCitations
        ("a \\cite\x7bx\x7d. \\cite\x7by\x7d.".toList)) ≠
      adaptCitations ("a \\cite\x7bx\x7d. \\cite\x7by\x7d.".toList) ∧
    adaptCitations ("a \\cite\x7bx\x7d. \\cite\x7by\x7d.".toList) =
      "a.\\cite\x7bx\x7d  \\cite\x7by\x7d.".toList ∧
    adaptCitations (adaptCitations
        ("a \\cite\x7bx\x7d. \\cite\x7by\x7d.".toList)) =
      "a.\\cite\x7bx\x7d.\\cite\x7by\x7d ".toList := by
  refine ⟨?_, ?_, ?_⟩
  · decide
  · decide
  · decide

/-! ### C8: frame property of citation-key rewriting -/

/-- Claim C8 (counterexample): with the rename map `oldk -> NEW` and a
text whose only occurrence of `oldk` lies OUTSIDE the braces of the
(earlier) citation directive, the rewrite still replaces it: the
pattern's `[\S\s]*?` gap is not stopped by the closing brace.  This
refutes the claim that occurrences outside a citation directive's
argument braces are left unchanged. -/
theorem c8_counterexample :
    replaceCiteEntries [("oldk".toList, "NEW".toList)]
        ("\\cite\x7ba\x7d x oldk".toList) =
      "\\cite\x7ba\x7d x NEW".toList ∧
    ("\\cite\x7ba\x7d x NEW".toList : Str) ≠
      "\\cite\x7ba\x7d x oldk".toList := by
  constructor
  · decide
  · decide

theorem hasOpener_tail (c : Char) (rest : Str)
    (h : hasOpener (c :: rest) = false) : hasOpener rest = false := by
  unfold hasOpener at h
  exact (Bool.or_eq_false_iff.mp h).2

theorem openerAt_none (c : Char) (rest : Str)
    (h : hasOpener (c :: rest) = false) :
    openerAt (c :: rest) = none := by
  unfold hasOpener at h
  have h1 := (Bool.or_eq_false_iff.mp h).1
  cases ho : openerAt (c :: rest) with
  | none => rfl
  | some n => rw [ho] at h1; simp at h1

theorem subCiteGo_no_opener (old new : Str) (fuel : Nat) (s : Str)
    (h : hasOpener s = false) : subCiteGo old new fuel s = s := by
  induction fuel generalizing s with
  | zero => rfl
  | succ fuel ih =>
    cases s with
    | nil => rfl
    | cons c rest =>
      unfold subCiteGo
      rw [openerAt_none c rest h]
      rw [ih rest (hasOpener_tail c rest h)]

/-- Claim C8 (amended): for each rename pair, the rewrite matches from a
citation opener (`\cite` / `\citenum` / `\citeauthor` with its opening
brace) lazily up to the next occurrence of the old key, without stopping
at the directive's closing brace, so occurrences outside the braces can
also be rewritten; a text containing no citation opener at all is
returned unchanged for every rename map — in particular every
occurrence of an old key in such a text is left untouched. -/
theorem c8_theorem (m : List (Str × Str)) (s : Str)
    (h : hasOpener s = false) : replaceCiteEntries m s = s := by
  unfold replaceCiteEntries
  induction m with
  | nil => rfl
  | cons p m ih =>
    simp only [List.foldl]
    rw [show subCite p.1 p.2 s = s from subCiteGo_no_opener _ _ _ _ h]
    exact ih

/-- Witness for the amended C8: a text mentioning `oldk` but containing
no citation opener is unchanged by the rewrite. -/
theorem c8_witness :
    hasOpener ("see oldk and oldk again".toList) = false ∧
    replaceCiteEntries [("oldk".toList, "NEW".toList)]
        ("see oldk and oldk again".toList) =
      "see oldk and oldk again".toList :=
  ⟨by decide,
   c8_theorem [("oldk".toList, "NEW".toList)] _ (by decide)⟩

/-! ### C5: key collisions between non-equal records -/

theorem natToDecGo_append (fuel : Nat) : ∀ (n : Nat) (acc : Str),
    natToDecGo fuel n acc = natToDecGo fuel n [] ++ acc := by
  induction fuel with
  | zero => intro n acc; simp [natToDecGo]
  | succ fuel ih =>
    intro n acc
    cases n with
    | zero => simp [natToDecGo]
    | succ m =>
      show natToDecGo fuel ((m + 1) / 10) (digitChar ((m + 1) % 10) :: acc) =
        natToDecGo fuel ((m + 1) / 10) [digitChar ((m + 1) % 10)] ++ acc
      rw [ih ((m + 1) / 10) (digitChar ((m + 1) % 10) :: acc),
          ih ((m + 1) / 10) [digitChar ((m + 1) % 10)]]
      simp

/-- The numeric value of a decimal digit string (inverse of `natToDec`,
used to prove the decimal rendering injective). -/
def decVal (s : Str) : Nat := s.foldl (fun a c => a * 10 + (c.toNat - 48)) 0

theorem decVal_append_digit (s : Str) (c : Char) :
    decVal (s ++ [c]) = 10 * decVal s + (c.toNat - 48) := by
  unfold decVal
  rw [List.foldl_append]
  simp [List.foldl]
  omega

theorem digitChar_toNat (r : Nat) (h : r < 10) :
    (digitChar r).toNat = 48 + r := by
  interval_cases r <;> rfl

theorem natToDecGo_zero (fuel : Nat) (acc : Str) :
    natToDecGo fuel 0 acc = acc := by
  cases fuel <;> rfl

theorem decVal_natToDecGo (fuel : Nat) : ∀ n : Nat, n ≠ 0 → n ≤ fuel →
    decVal (natToDecGo fuel n []) = n := by
  induction fuel with
  | zero => intro n h1 h2; omega
  | succ fuel ih =>
    intro n h1 h2
    cases n with
    | zero => omega
    | succ m =>
      show decVal (natToDecGo fuel ((m + 1) / 10)
        [digitChar ((m + 1) % 10)]) = m + 1
      rw [natToDecGo_append fuel ((m + 1) / 10) [digitChar ((m + 1) % 10)]]
      rw [decVal_append_digit]
      rw [digitChar_toNat _ (Nat.mod_lt _ (by decide))]
      by_cases hq : (m + 1) / 10 = 0
      · rw [hq, natToDecGo_zero]
        have hlt : m + 1 < 10 :=
          (Nat.div_eq_zero_iff (by decide)).mp hq
        have hmod : (m + 1) % 10 = m + 1 := Nat.mod_eq_of_lt hlt
        simp [decVal, hmod]
      · have hle : (m + 1) / 10 ≤ fuel := by
          have := Nat.div_lt_self (Nat.succ_pos m) (by decide : 1 < 10)
          omega
        rw [ih _ hq hle]
        have := Nat.div_add_mod (m + 1) 10
        omega

theorem decVal_natToDec (n : Nat) : decVal (natToDec n) = n := by
  unfold natToDec
  by_cases h : n = 0
  · rw [if_pos h, h]; rfl
  · rw [if_neg h]; exact decVal_natToDecGo n n h (le_refl n)

theorem natToDec_inj (a b : Nat) (h : natToDec a = natToDec b) : a = b := by
  have ha := decVal_natToDec a
  rw [h, decVal_natToDec] at ha
  omega

theorem natToDec_ne_nil (n : Nat) : natToDec n ≠ [] := by
  intro he
  have h := decVal_natToDec n
  rw [he] at h
  have h0 : n = 0 := by simpa [decVal] using h.symm
  rw [h0] at he
  simp [natToDec] at he

theorem memKeys_iff_mem {α : Type} (d : List (Str × α)) (k : Str) :
    memKeys d k = true ↔ k ∈ keysOf d := by
  induction d with
  | nil =>
    constructor
    · intro h
      rw [show memKeys ([] : List (Str × α)) k = false from rfl] at h
      cases h
    · intro h
      simp [keysOf] at h
  | cons p d ih =>
    cases p with
    | mk k0 v0 =>
      unfold memKeys
      rw [show lookupD ((k0, v0) :: d) k =
        (if k0 = k then some v0 else lookupD d k) from rfl]
      unfold keysOf
      rw [List.map_cons, List.mem_cons]
      by_cases h : k0 = k
      · rw [if_pos h]
        constructor
        · intro _
          exact Or.inl h.symm
        · intro _
          rfl
      · rw [if_neg h]
        unfold memKeys at ih
        unfold keysOf at ih
        rw [ih]
        constructor
        · exact Or.inr
        · rintro (h2 | h2)
          · exact absurd h2.symm h
          · exact h2

theorem nodup_subset_length {β : Type} [DecidableEq β] (l m : List β)
    (h : l.Nodup) (hs : l ⊆ m) : l.length ≤ m.length := by
  calc l.length = l.toFinset.card := (List.toFinset_card_of_nodup h).symm
    _ ≤ m.toFinset.card := Finset.card_le_card (fun x hx => by
        rw [List.mem_toFinset] at hx ⊢
        exact hs hx)
    _ ≤ m.length := m.toFinset_card_le

theorem copyCand_inj (key : Str) (i j : Nat)
    (h : copyCand key i = copyCand key j) : i = j := by
  unfold copyCand at h
  exact natToDec_inj i j (List.append_cancel_left h)

theorem copyCand_exists_fresh (d : List (Str × BibEntry)) (key : Str) :
    ∃ j, 1 ≤ j ∧ j ≤ d.length + 1 ∧
      memKeys d (copyCand key j) = false := by
  by_contra hc
  push_neg at hc
  have hall : ∀ j, 1 ≤ j → j ≤ d.length + 1 →
      copyCand key j ∈ keysOf d := by
    intro j hj1 hj2
    have hne := hc j hj1 hj2
    rw [← memKeys_iff_mem]
    cases hm : memKeys d (copyCand key j) with
    | true => rfl
    | false => exact absurd hm hne
  have hnd : ((List.range (d.length + 1)).map
      (fun j => copyCand key (j + 1))).Nodup := by
    refine List.Nodup.map ?_ (List.nodup_range _)
    intro x y hxy
    have := copyCand_inj key (x + 1) (y + 1) hxy
    omega
  have hsub : ((List.range (d.length + 1)).map
      (fun j => copyCand key (j + 1))) ⊆ keysOf d := by
    intro x hx
    simp only [List.mem_map, List.mem_range] at hx
    obtain ⟨j, hj, he⟩ := hx
    rw [← he]
    exact hall (j + 1) (by omega) (by omega)
  have hlen := nodup_subset_length _ _ hnd hsub
  have h1 : ((List.range (d.length + 1)).map
      (fun j => copyCand key (j + 1))).length = d.length + 1 := by simp
  have h2 : (keysOf d).length = d.length := by simp [keysOf]
  omega

theorem freshIdxGo_spec (d : List (Str × BibEntry)) (key : Str) :
    ∀ (fuel i : Nat),
    (∃ j, i ≤ j ∧ j < i + fuel ∧ memKeys d (copyCand key j) = false) →
    memKeys d (copyCand key (freshIdxGo d key fuel i)) = false ∧
    i ≤ freshIdxGo d key fuel i ∧
    ∀ j, i ≤ j → j < freshIdxGo d key fuel i →
      memKeys d (copyCand key j) = true := by
  intro fuel
  induction fuel with
  | zero =>
    intro i h
    obtain ⟨j, hj1, hj2, _⟩ := h
    omega
  | succ fuel ih =>
    intro i h
    obtain ⟨j, hj1, hj2, hj3⟩ := h
    unfold freshIdxGo
    by_cases hm : memKeys d (copyCand key i) = true
    · rw [if_pos hm]
      have hji : j ≠ i := by
        intro he
        rw [he] at hj3
        rw [hj3] at hm
        cases hm
      obtain ⟨g1, g2, g3⟩ := ih (i + 1) ⟨j, by omega, by omega, hj3⟩
      refine ⟨g1, by omega, ?_⟩
      intro j2 hj4 hj5
      by_cases hji2 : j2 = i
      · rw [hji2]; exact hm
      · exact g3 j2 (by omega) hj5
    · rw [if_neg hm]
      refine ⟨by simpa using hm, le_refl _, ?_⟩
      intro j2 hj4 hj5
      omega

theorem addStep_collision_ne (ltt : Str → Str) (nb : BibFile)
    (key : Str) (e1 e2 : BibEntry)
    (h1 : lookupD nb.bib_entries key = some e1)
    (h2 : BibEntry.eq ltt e2 e1 = false) :
    addStep ltt nb (key, e2) =
      { nb with bib_entries := (dictInsert nb.bib_entries
          (copyKey nb.bib_entries key) e2) } := by
  unfold addStep
  split
  · rename_i existing hl
    rw [h1] at hl
    cases hl
    rw [if_neg (by rw [h2]; simp)]
  · rename_i hl
    rw [h1] at hl
    cases hl

/-- Claim C5: combining a collection `a` holding `e1` under `key` with a
collection holding a non-equal record `e2` under the same `key` keeps
`e1` under `key`, inserts `e2` under the synthesized key
`key + "Copy" + str(i)`, where `i ≥ 1` is minimal with that key absent
from the running result (every smaller index's candidate is present,
and the chosen candidate is absent).  In the source this is reported by
a printed warning; no exception is raised — the embedded `BibFile.add`
is correspondingly total. -/
theorem c5_theorem (ltt : Str → Str) (a : BibFile) (pre2 : List Str)
    (key : Str) (e1 e2 : BibEntry)
    (h1 : lookupD a.bib_entries key = some e1)
    (h2 : BibEntry.eq ltt e2 e1 = false) :
    lookupD (BibFile.add ltt a ⟨[(key, e2)], pre2⟩).bib_entries key =
      some e1 ∧
    lookupD (BibFile.add ltt a ⟨[(key, e2)], pre2⟩).bib_entries
      (copyCand key (freshIdx a.bib_entries key)) = some e2 ∧
    memKeys a.bib_entries
      (copyCand key (freshIdx a.bib_entries key)) = false ∧
    1 ≤ freshIdx a.bib_entries key ∧
    (∀ j, 1 ≤ j → j < freshIdx a.bib_entries key →
      memKeys a.bib_entries (copyCand key j) = true) := by
  have hfresh : ∃ j, 1 ≤ j ∧ j < 1 + (a.bib_entries.length + 1) ∧
      memKeys a.bib_entries (copyCand key j) = false := by
    obtain ⟨j, hj1, hj2, hj3⟩ := copyCand_exists_fresh a.bib_entries key
    exact ⟨j, hj1, by omega, hj3⟩
  obtain ⟨g1, g2, g3⟩ :=
    freshIdxGo_spec a.bib_entries key (a.bib_entries.length + 1) 1 hfresh
  have hadd : BibFile.add ltt a ⟨[(key, e2)], pre2⟩ =
      { bib_entries := (dictInsert a.bib_entries
          (copyKey a.bib_entries key) e2),
        non_entry_lines := a.non_entry_lines ++ pre2 } := by
    unfold BibFile.add
    simp only [List.foldl]
    exact addStep_collision_ne ltt
      ⟨a.bib_entries, a.non_entry_lines ++ pre2⟩ key e1 e2 h1 h2
  have hne : copyCand key (freshIdx a.bib_entries key) ≠ key := by
    intro he
    have hlen := congrArg List.length he
    simp only [copyCand, List.length_append] at hlen
    have hd : 1 ≤ (natToDec (freshIdx a.bib_entries key)).length := by
      cases hn : natToDec (freshIdx a.bib_entries key) with
      | nil => exact absurd hn (natToDec_ne_nil _)
      | cons c cs => simp
    have hc : copyTok.length = 4 := rfl
    omega
  refine ⟨?_, ?_, g1, g2, g3⟩
  · rw [hadd]
    show lookupD (dictInsert a.bib_entries
      (copyCand key (freshIdx a.bib_entries key)) e2) key = some e1
    rw [lookupD_insert_ne _ _ _ _ (fun he => hne he.symm)]
    exact h1
  · rw [hadd]
    show lookupD (dictInsert a.bib_entries
      (copyCand key (freshIdx a.bib_entries key)) e2)
      (copyCand key (freshIdx a.bib_entries key)) = some e2
    exact lookupD_insert_self _ _ _

/-- Witness for C5: the collection `(shared -> e1)` combined with
`(shared -> e2)` where `e2`'s identifier and title differ from `e1`'s;
the synthesized key is `sharedCopy1` and both records are retained. -/
theorem c5_witness :
    lookupD
      (⟨[("shared".toList,
          ⟨"a".toList, "shared".toList,
            [("title".toList, "T1".toList)]⟩)], []⟩ : BibFile).bib_entries
      ("shared".toList) =
      some ⟨"a".toList, "shared".toList, [("title".toList, "T1".toList)]⟩ ∧
    BibEntry.eq (fun s => s)
      ⟨"a".toList, "sharedX".toList, [("title".toList, "T2".toList)]⟩
      ⟨"a".toList, "shared".toList, [("title".toList, "T1".toList)]⟩ =
      false ∧
    lookupD (BibFile.add (fun s => s)
        ⟨[("shared".toList,
            ⟨"a".toList, "shared".toList,
              [("title".toList, "T1".toList)]⟩)], []⟩
        ⟨[("shared".toList,
            ⟨"a".toList, "sharedX".toList,
              [("title".toList, "T2".toList)]⟩)], []⟩).bib_entries
      ("shared".toList) =
      some ⟨"a".toList, "shared".toList, [("title".toList, "T1".toList)]⟩ ∧
    lookupD (BibFile.add (fun s => s)
        ⟨[("shared".toList,
            ⟨"a".toList, "shared".toList,
              [("title".toList, "T1".toList)]⟩)], []⟩
        ⟨[("shared".toList,
            ⟨"a".toList, "sharedX".toList,
              [("title".toList, "T2".toList)]⟩)], []⟩).bib_entries
      ("sharedCopy1".toList) =
      some ⟨"a".toList, "sharedX".toList, [("title".toList, "T2".toList)]⟩ := by
  refine ⟨by decide, by decide, ?_, ?_⟩
  · exact (c5_theorem (fun s => s)
      ⟨[("shared".toList,
          ⟨"a".toList, "shared".toList, [("title".toList, "T1".toList)]⟩)], []⟩
      [] ("shared".toList)
      ⟨"a".toList, "shared".toList, [("title".toList, "T1".toList)]⟩
      ⟨"a".toList, "sharedX".toList, [("title".toList, "T2".toList)]⟩
      (by decide) (by decide)).1
  · have h := (c5_theorem (fun s => s)
      ⟨[("shared".toList,
          ⟨"a".toList, "shared".toList, [("title".toList, "T1".toList)]⟩)], []⟩
      [] ("shared".toList)
      (⟨"a".toList, "shared".toList, [("title".toList, "T1".toList)]⟩)
      (⟨"a".toList, "sharedX".toList, [("title".toList, "T2".toList)]⟩)
      (by decide) (by decide)).2.1
    rw [show copyCand ("shared".toList)
      (freshIdx [("shared".toList,
        (⟨"a".toList, "shared".toList,
          [("title".toList, "T1".toList)]⟩ : BibEntry))] ("shared".toList)) =
      "sharedCopy1".toList from by decide] at h
    exact h

/-! ### C9: author-initials normalization -/

theorem upper_not_space (c : Char) (h : isUpperAZ c = true) :
    isPySpace c = false := by
  unfold isUpperAZ at h
  unfold isPySpace
  simp only [Bool.and_eq_true, decide_eq_true_eq] at h
  simp only [Bool.or_eq_false_iff, decide_eq_false_iff_not]
  omega

theorem space_not_upper (c : Char) (h : isPySpace c = true) :
    isUpperAZ c = false := by
  unfold isPySpace at h
  unfold isUpperAZ
  simp only [Bool.or_eq_true, decide_eq_true_eq] at h
  simp only [Bool.and_eq_false_iff, decide_eq_false_iff_not]
  omega

theorem authorGo_st0_cons (c : Char) (rest : Str) :
    authorGo .st0 (c :: rest) =
      if isPySpace c then authorGo (.stW [c]) rest
      else c :: authorGo .st0 rest := rfl

theorem authorGo_stW_cons (ws : Str) (c : Char) (rest : Str) :
    authorGo (.stW ws) (c :: rest) =
      if isPySpace c then authorGo (.stW (ws ++ [c])) rest
      else if isUpperAZ c then authorGo (.stU ws [c]) rest
      else ws ++ c :: authorGo .st0 rest := rfl

theorem authorGo_stU_cons (ws u : Str) (c : Char) (rest : Str) :
    authorGo (.stU ws u) (c :: rest) =
      if isUpperAZ c then authorGo (.stU ws (u ++ [c])) rest
      else if isPySpace c then ' ' :: dotted u ++ c :: authorGo .st0 rest
      else ws ++ u ++ c :: authorGo .st0 rest := rfl

theorem authorGo_st0_append (p s : Str)
    (hp : ∀ c ∈ p, isPySpace c = false) :
    authorGo .st0 (p ++ s) = p ++ authorGo .st0 s := by
  induction p with
  | nil => rfl
  | cons c p ih =>
    have hc : isPySpace c = false := hp c (List.mem_cons_self _ _)
    show authorGo .st0 (c :: (p ++ s)) = c :: (p ++ authorGo .st0 s)
    rw [authorGo_st0_cons, hc]
    simp only [Bool.false_eq_true, if_false]
    rw [ih (fun x hx => hp x (List.mem_cons_of_mem _ hx))]

theorem authorGo_stU_upper (u : Str) (hu : ∀ x ∈ u, isUpperAZ x = true) :
    ∀ ws acc rest, authorGo (.stU ws acc) (u ++ rest) =
      authorGo (.stU ws (acc ++ u)) rest := by
  induction u with
  | nil => intro ws acc rest; simp
  | cons c u ih =>
    intro ws acc rest
    have hc : isUpperAZ c = true := hu c (List.mem_cons_self _ _)
    show authorGo (.stU ws acc) (c :: (u ++ rest)) = _
    rw [authorGo_stU_cons, hc]
    simp only [if_true]
    rw [ih (fun x hx => hu x (List.mem_cons_of_mem _ hx)) ws (acc ++ [c])
      rest]
    rw [List.append_assoc]
    rfl

/-- Claim C9 (counterexample): parsing the author value `JM Smith`
leaves it unchanged — the compact-initials token `JM` stands at the
start of the value, where the pattern's mandatory leading `\s+` cannot
match — although the claim requires it to become `J. M. Smith`. -/
theorem c9_counterexample :
    processFieldValue ("author".toList) ("JM Smith".toList) =
      "JM Smith".toList ∧
    ("JM Smith".toList : Str) ≠ "J. M. Smith".toList := by
  constructor
  · decide
  · decide

/-- Claim C9 (amended): in the author normalization of `parse_entry`, a
run of capital letters that is preceded by whitespace and followed by a
whitespace character (or the end of the value) is rewritten to the
dotted initials (each letter followed by a period, letters separated by
spaces, the whole preceded by a single space and followed by the
captured whitespace character).  A run at the very start of the value is
NOT rewritten (there is no leading whitespace for `\s+`), and because a
match consumes the following whitespace character, the scan resumes
directly at a subsequent token, so of two consecutive runs only the
first is rewritten — as the third part shows, a run standing alone (as
the consecutive-token case reduces to) stays unchanged. -/
theorem c9_theorem (p u rest : Str) (c : Char)
    (hp : ∀ x ∈ p, isPySpace x = false)
    (hu0 : u ≠ []) (hu : ∀ x ∈ u, isUpperAZ x = true)
    (hc : isPySpace c = true) :
    authorSub (p ++ ' ' :: (u ++ c :: rest)) =
      p ++ ' ' :: (dotted u ++ c :: authorSub rest) ∧
    authorSub (p ++ ' ' :: u) = p ++ ' ' :: dotted u ∧
    authorSub u = u := by
  obtain ⟨u0, u', he⟩ : ∃ u0 u', u = u0 :: u' := by
    cases u with
    | nil => exact absurd rfl hu0
    | cons u0 u' => exact ⟨u0, u', rfl⟩
  subst he
  have hu0u : isUpperAZ u0 = true := hu u0 (List.mem_cons_self _ _)
  have hblock : ∀ t, authorGo .st0 (' ' :: ((u0 :: u') ++ t)) =
      authorGo (.stU [' '] (u0 :: u')) t := by
    intro t
    rw [authorGo_st0_cons, show isPySpace ' ' = true from rfl]
    simp only [if_true]
    show authorGo (.stW [' ']) (u0 :: (u' ++ t)) = _
    rw [authorGo_stW_cons, upper_not_space u0 hu0u]
    simp only [Bool.false_eq_true, if_false]
    rw [hu0u]
    simp only [if_true]
    rw [authorGo_stU_upper u' (fun x hx => hu x (List.mem_cons_of_mem _ hx))
      [' '] [u0] t]
    rfl
  refine ⟨?_, ?_, ?_⟩
  · unfold authorSub
    rw [authorGo_st0_append p _ hp]
    rw [show ((u0 :: u') ++ c :: rest : Str) =
      (u0 :: u') ++ (c :: rest) from rfl, hblock (c :: rest)]
    rw [authorGo_stU_cons, space_not_upper c hc]
    simp only [Bool.false_eq_true, if_false]
    rw [hc]
    simp only [if_true]
    rfl
  · unfold authorSub
    rw [authorGo_st0_append p _ hp]
    rw [show (' ' :: (u0 :: u') : Str) =
      ' ' :: ((u0 :: u') ++ []) from by simp, hblock []]
    rfl
  · unfold authorSub
    rw [show ((u0 :: u') : Str) = (u0 :: u') ++ [] from by simp]
    rw [authorGo_st0_append (u0 :: u') []
      (fun x hx => upper_not_space x (hu x hx))]
    simp [show authorGo .st0 ([] : Str) = [] from rfl]

/-- Witness for the amended C9 at `Garcia JM AB`: the interior run `JM`
is rewritten (and the following run `AB` is not, its leading whitespace
having been consumed by the match), `Garcia JM` rewrites the trailing
run, and the standalone run `JM` is unchanged. -/
theorem c9_witness :
    (∀ x ∈ ("Garcia".toList : Str), isPySpace x = false) ∧
    (("JM".toList : Str) ≠ []) ∧
    (∀ x ∈ ("JM".toList : Str), isUpperAZ x = true) ∧
    isPySpace ' ' = true ∧
    authorSub ("Garcia JM AB".toList) = "Garcia J. M. AB".toList ∧
    authorSub ("Garcia JM".toList) = "Garcia J. M.".toList ∧
    authorSub ("JM".toList) = "JM".toList := by
  refine ⟨by decide, by decide, by decide, by decide, ?_, ?_, ?_⟩
  · rw [show ("Garcia JM AB".toList : Str) =
      "Garcia".toList ++ ' ' :: ("JM".toList ++ ' ' :: "AB".toList)
      from by decide]
    rw [(c9_theorem ("Garcia".toList) ("JM".toList) ("AB".toList) ' '
      (by decide) (by decide) (by decide) (by decide)).1]
    decide
  · rw [show ("Garcia JM".toList : Str) =
      "Garcia".toList ++ ' ' :: "JM".toList from by decide]
    rw [(c9_theorem ("Garcia".toList) ("JM".toList) [] ' '
      (by decide) (by decide) (by decide) (by decide)).2.1]
    decide
  · exact (c9_theorem ("Garcia".toList) ("JM".toList) [] ' '
      (by decide) (by decide) (by decide) (by decide)).2.2

/-! ### C10: numbered re-emission of section headings -/

theorem esGo_false_cons (un : Bool) (l : Str) (rest : List Str) :
    esGo un false (l :: rest) =
      (match secMatch l with
       | some t =>
          if pyStrip t = [] then esGo un false rest
          else (secTok ++ lbr :: (t ++ [rbr])) :: esGo un true rest
       | none => esGo un false rest) := rfl

theorem esGo_true_cons (un : Bool) (l : Str) (rest : List Str) :
    esGo un true (l :: rest) =
      (if containsTok l endTok && containsTok l docTok then []
       else if containsTok l bibTok then esGo un true rest
       else
         match secMatch l with
         | some t =>
            if un && ackMatch (pyLower (pyStrip t)) then
              (secTok ++ '*' :: lbr :: (t ++ [rbr])) :: esGo un true rest
            else (secTok ++ lbr :: (t ++ [rbr])) :: esGo un true rest
         | none => l :: esGo un true rest) := rfl

theorem esGo_false_cons_sec (un : Bool) (l t : Str) (rest : List Str)
    (hm : secMatch l = some t) :
    esGo un false (l :: rest) =
      (if pyStrip t = [] then esGo un false rest
       else (secTok ++ lbr :: (t ++ [rbr])) :: esGo un true rest) := by
  rw [esGo_false_cons, hm]

theorem esGo_true_cons_sec (un : Bool) (l t : Str) (rest : List Str)
    (h1 : (containsTok l endTok && containsTok l docTok) = false)
    (h2 : containsTok l bibTok = false)
    (hm : secMatch l = some t) :
    esGo un true (l :: rest) =
      (if un && ackMatch (pyLower (pyStrip t)) then
        (secTok ++ '*' :: lbr :: (t ++ [rbr])) :: esGo un true rest
      else (secTok ++ lbr :: (t ++ [rbr])) :: esGo un true rest) := by
  rw [esGo_true_cons, h1]
  simp only [Bool.false_eq_true, if_false]
  rw [h2]
  simp only [Bool.false_eq_true, if_false]
  rw [hm]

/-- Claim C10 (counterexample): inside the extracted region, a section
heading whose line contains the substring `\bibliography` — here in its
own title — is dropped by the bibliography-line filter before the
heading check runs, so this non-acknowledgment heading is not emitted at
all, let alone in numbered form. -/
theorem c10_counterexample :
    secMatch ("\\section\x7bMy \\bibliography notes\x7d".toList) =
      some ("My \\bibliography notes".toList) ∧
    ackMatch (pyLower (pyStrip ("My \\bibliography notes".toList))) =
      false ∧
    esGo true false
      ["\\section\x7bIntro\x7d".toList,
       "\\section\x7bMy \\bibliography notes\x7d".toList] =
      ["\\section\x7bIntro\x7d".toList] ∧
    ("\\section\x7bMy \\bibliography notes\x7d".toList : Str) ∉
      esGo true false
        ["\\section\x7bIntro\x7d".toList,
         "\\section\x7bMy \\bibliography notes\x7d".toList] := by
  refine ⟨by decide, by decide, by decide, by decide⟩

/-- Claim C10 (amended): with `unnumbered_sections = True`, the start
heading (the first heading with a non-blank title) is emitted in the
numbered `\section` form whatever its title and star, and a heading
line processed in the started state — one that does not contain both
`\end` and `document`, and does not contain `\bibliography` — whose
title does not match the acknowledgment/conflict-of-interest patterns
is emitted in the numbered `\section` form even when authored starred
(the heading matcher `secMatch` accepts both `\section` and
`\section*`).  Headings dropped by those two guard filters, or lying
after the end-of-document line, are not emitted at all. -/
theorem c10_theorem (l t : Str) (rest : List Str)
    (hm : secMatch l = some t) :
    (pyStrip t ≠ [] →
      esGo true false (l :: rest) =
        (secTok ++ lbr :: (t ++ [rbr])) :: esGo true true rest) ∧
    ((containsTok l endTok && containsTok l docTok) = false →
     containsTok l bibTok = false →
     ackMatch (pyLower (pyStrip t)) = false →
      esGo true true (l :: rest) =
        (secTok ++ lbr :: (t ++ [rbr])) :: esGo true true rest) := by
  constructor
  · intro ht
    rw [esGo_false_cons_sec true l t rest hm, if_neg ht]
  · intro h1 h2 h3
    rw [esGo_true_cons_sec true l t rest h1 h2 hm]
    rw [Bool.true_and, h3]
    simp only [Bool.false_eq_true, if_false]

/-- Witness for the amended C10: a starred acknowledgment heading used
as the start marker is emitted numbered, and a starred `Results` heading
in the started state is emitted numbered. -/
theorem c10_witness :
    secMatch ("\\section*\x7bAcknowledgments\x7d".toList) =
      some ("Acknowledgments".toList) ∧
    pyStrip ("Acknowledgments".toList) ≠ [] ∧
    esGo true false ["\\section*\x7bAcknowledgments\x7d".toList] =
      [("\\section\x7bAcknowledgments\x7d".toList)] ∧
    (containsTok ("\\section*\x7bResults\x7d".toList) endTok &&
      containsTok ("\\section*\x7bResults\x7d".toList) docTok) = false ∧
    containsTok ("\\section*\x7bResults\x7d".toList) bibTok = false ∧
    ackMatch (pyLower (pyStrip ("Results".toList))) = false ∧
    esGo true true ["\\section*\x7bResults\x7d".toList] =
      [("\\section\x7bResults\x7d".toList)] := by
  refine ⟨by decide, by decide, ?_, by decide, by decide, by decide, ?_⟩
  · rw [(c10_theorem ("\\section*\x7bAcknowledgments\x7d".toList)
      ("Acknowledgments".toList) [] (by decide)).1 (by decide)]
    decide
  · rw [(c10_theorem ("\\section*\x7bResults\x7d".toList)
      ("Results".toList) [] (by decide)).2 (by decide) (by decide)
      (by decide)]
    decide

/-! ### C4: the rename map of merge_duplicated_entries -/

theorem dupGroupsGo_succ (ltt : Str → Str) (values : List BibEntry)
    (fuel index : Nat) (rest : List Nat) :
    dupGroupsGo ltt values (fuel + 1) (index :: rest) =
      (if (index :: rest.filter (dupHit ltt values index)).length > 1 then
        (index :: rest.filter (dupHit ltt values index)) ::
          dupGroupsGo ltt values fuel
            (rest.filter (fun i => ¬ dupHit ltt values index i))
      else
        dupGroupsGo ltt values fuel
          (rest.filter (fun i => ¬ dupHit ltt values index i))) := rfl

theorem dupGroupsGo_props (ltt : Str → Str) (values : List BibEntry) :
    ∀ (fuel : Nat) (rem : List Nat), rem.Nodup →
      (∀ g ∈ dupGroupsGo ltt values fuel rem,
        g ≠ [] ∧ g.Nodup ∧ ∀ i ∈ g, i ∈ rem) ∧
      List.Pairwise (fun g1 g2 => ∀ i ∈ g1, i ∉ g2)
        (dupGroupsGo ltt values fuel rem) := by
  intro fuel
  induction fuel with
  | zero =>
    intro rem hnd
    constructor
    · intro g hg
      exact absurd hg (List.not_mem_nil g)
    · exact List.Pairwise.nil
  | succ fuel ih =>
    intro rem hnd
    cases rem with
    | nil =>
      constructor
      · intro g hg
        exact absurd hg (List.not_mem_nil g)
      · exact List.Pairwise.nil
    | cons index rest =>
      have hrest : rest.Nodup := hnd.of_cons
      have hind : index ∉ rest := (List.nodup_cons.mp hnd).1
      have hrem2 :
          (rest.filter (fun i => ¬ dupHit ltt values index i)).Nodup :=
        hrest.filter _
      obtain ⟨ih1, ih2⟩ := ih _ hrem2
      have hsubrec : ∀ g ∈ dupGroupsGo ltt values fuel
          (rest.filter (fun i => ¬ dupHit ltt values index i)),
          g ≠ [] ∧ g.Nodup ∧ ∀ i ∈ g, i ∈ index :: rest := by
        intro g hg
        obtain ⟨h1, h2, h3⟩ := ih1 g hg
        exact ⟨h1, h2, fun i hi => List.mem_cons_of_mem _
          (List.mem_of_mem_filter (h3 i hi))⟩
      rw [dupGroupsGo_succ]
      by_cases hlen :
          (index :: rest.filter (dupHit ltt values index)).length > 1
      · rw [if_pos hlen]
        have hauxsub : ∀ i ∈ index :: rest.filter (dupHit ltt values index),
            i ∈ index :: rest := by
          intro i hi
          rcases List.mem_cons.mp hi with h | h
          · exact h ▸ List.mem_cons_self _ _
          · exact List.mem_cons_of_mem _ (List.mem_of_mem_filter h)
        have hauxnd : (index :: rest.filter (dupHit ltt values index)).Nodup := by
          rw [List.nodup_cons]
          exact ⟨fun hmem => hind (List.mem_of_mem_filter hmem),
            hrest.filter _⟩
        constructor
        · intro g hg
          rcases List.mem_cons.mp hg with h | h
          · rw [h]
            exact ⟨by simp, hauxnd, hauxsub⟩
          · exact hsubrec g h
        · rw [List.pairwise_cons]
          refine ⟨?_, ih2⟩
          intro g' hg' i hi hig'
          obtain ⟨-, -, h3⟩ := ih1 g' hg'
          have hif := h3 i hig'
          have hihit := List.of_mem_filter hif
          simp only [decide_eq_true_eq] at hihit
          rcases List.mem_cons.mp hi with h | h
          · exact hind (h ▸ List.mem_of_mem_filter hif)
          · exact hihit (List.of_mem_filter h)
      · rw [if_neg hlen]
        exact ⟨hsubrec, ih2⟩

theorem lookupD_foldl_insert_const {α : Type} (v : α) :
    ∀ (l : List Str) (m : List (Str × α)) (k : Str),
    (k ∈ l ∨ lookupD m k = some v) →
    lookupD (l.foldl (fun m2 k2 => dictInsert m2 k2 v) m) k = some v := by
  intro l
  induction l with
  | nil =>
    intro m k h
    rcases h with h | h
    · exact absurd h (List.not_mem_nil k)
    · exact h
  | cons k0 l ih =>
    intro m k h
    simp only [List.foldl]
    apply ih
    by_cases he : k = k0
    · right
      rw [he]
      exact lookupD_insert_self _ _ _
    · rcases h with h | h
      · rcases List.mem_cons.mp h with h2 | h2
        · exact absurd h2 he
        · left; exact h2
      · right
        rw [lookupD_insert_ne _ _ _ _ he]
        exact h

theorem lookupD_foldl_insert_ne {α : Type} (v : α) :
    ∀ (l : List Str) (m : List (Str × α)) (k : Str), k ∉ l →
    lookupD (l.foldl (fun m2 k2 => dictInsert m2 k2 v) m) k =
      lookupD m k := by
  intro l
  induction l with
  | nil => intro m k _; rfl
  | cons k0 l ih =>
    intro m k h
    simp only [List.foldl]
    rw [ih _ k (fun hm => h (List.mem_cons_of_mem _ hm))]
    exact lookupD_insert_ne _ _ _ _ (fun he => h (he ▸ List.mem_cons_self _ _))

theorem lookupD_foldl_pop_ne {α : Type} :
    ∀ (l : List Str) (d : List (Str × α)) (k : Str), k ∉ l →
    lookupD (l.foldl (fun d2 k2 => dictPop d2 k2) d) k = lookupD d k := by
  intro l
  induction l with
  | nil => intro d k _; rfl
  | cons k0 l ih =>
    intro d k h
    simp only [List.foldl]
    rw [ih _ k (fun hm => h (List.mem_cons_of_mem _ hm))]
    exact lookupD_pop_ne _ _ _ (fun he => h (he ▸ List.mem_cons_self _ _))

theorem merge_id_or (a b : BibEntry) :
    (BibEntry.merge a b).id_key = a.id_key ∨
    (BibEntry.merge a b).id_key = b.id_key := by
  unfold BibEntry.merge
  by_cases h : a.id_key.length < b.id_key.length
  · exact Or.inl (by simp [h])
  · exact Or.inr (by simp [h])

theorem foldl_merge_id (bib : BibFile) :
    ∀ (gr : List Str) (e : BibEntry),
    (gr.foldl (fun e2 k => BibEntry.merge e2 (getEntry bib k)) e).id_key =
      e.id_key ∨
    ∃ k, k ∈ gr ∧
      (gr.foldl (fun e2 k => BibEntry.merge e2 (getEntry bib k)) e).id_key =
        (getEntry bib k).id_key := by
  intro gr
  induction gr with
  | nil => intro e; exact Or.inl rfl
  | cons k0 gr ih =>
    intro e
    simp only [List.foldl]
    rcases ih (BibEntry.merge e (getEntry bib k0)) with h | ⟨k, hk, h⟩
    · rcases merge_id_or e (getEntry bib k0) with h2 | h2
      · exact Or.inl (h.trans h2)
      · exact Or.inr ⟨k0, List.mem_cons_self _ _, h.trans h2⟩
    · exact Or.inr ⟨k, List.mem_cons_of_mem _ hk, h⟩

theorem groupFinal_id_mem (bib : BibFile) (g : List Str) (hg : g ≠ [])
    (h : ∀ k ∈ g, (getEntry bib k).id_key = k) :
    (groupFinal bib g).id_key ∈ g := by
  cases g with
  | nil => exact absurd rfl hg
  | cons g0 gr =>
    show (gr.foldl (fun e2 k => BibEntry.merge e2 (getEntry bib k))
      (getEntry bib g0)).id_key ∈ g0 :: gr
    rcases foldl_merge_id bib gr (getEntry bib g0) with h2 | ⟨k, hk, h2⟩
    · rw [h2, h g0 (List.mem_cons_self _ _)]
      exact List.mem_cons_self _ _
    · rw [h2, h k (List.mem_cons_of_mem _ hk)]
      exact List.mem_cons_of_mem _ hk

theorem getEntry_congr (b1 b2 : BibFile) (k : Str)
    (h : lookupD b1.bib_entries k = lookupD b2.bib_entries k) :
    getEntry b1 k = getEntry b2 k := by
  unfold getEntry
  rw [h]

theorem foldl_merge_congr (b1 b2 : BibFile) :
    ∀ (gr : List Str) (e : BibEntry),
    (∀ k ∈ gr, getEntry b1 k = getEntry b2 k) →
    gr.foldl (fun e2 k => BibEntry.merge e2 (getEntry b1 k)) e =
    gr.foldl (fun e2 k => BibEntry.merge e2 (getEntry b2 k)) e := by
  intro gr
  induction gr with
  | nil => intro e _; rfl
  | cons k0 gr ih =>
    intro e h
    simp only [List.foldl]
    rw [h k0 (List.mem_cons_self _ _)]
    exact ih _ (fun k hk => h k (List.mem_cons_of_mem _ hk))

theorem groupFinal_congr (b1 b2 : BibFile) (g : List Str)
    (h : ∀ k ∈ g, lookupD b1.bib_entries k = lookupD b2.bib_entries k) :
    groupFinal b1 g = groupFinal b2 g := by
  cases g with
  | nil => rfl
  | cons g0 gr =>
    show gr.foldl (fun e2 k => BibEntry.merge e2 (getEntry b1 k))
        (getEntry b1 g0) =
      gr.foldl (fun e2 k => BibEntry.merge e2 (getEntry b2 k))
        (getEntry b2 g0)
    rw [getEntry_congr b1 b2 g0 (h g0 (List.mem_cons_self _ _))]
    exact foldl_merge_congr b1 b2 gr _
      (fun k hk => getEntry_congr b1 b2 k (h k (List.mem_cons_of_mem _ hk)))

theorem processGroup_cons (st : BibFile × List (Str × Str)) (g0 : Str)
    (grest : List Str) :
    processGroup st (g0 :: grest) =
      ({ st.1 with bib_entries := (dictInsert
          ((g0 :: grest).foldl (fun d k => dictPop d k) st.1.bib_entries)
          (groupFinal st.1 (g0 :: grest)).id_key
          (groupFinal st.1 (g0 :: grest))) },
       (g0 :: grest).foldl
         (fun m k => dictInsert m k (groupFinal st.1 (g0 :: grest)).id_key)
         st.2) := rfl

theorem processGroup_map_preserve (st : BibFile × List (Str × Str))
    (g : List Str) (k : Str) (hk : k ∉ g) :
    lookupD (processGroup st g).2 k = lookupD st.2 k := by
  cases g with
  | nil => rfl
  | cons g0 gr =>
    rw [processGroup_cons]
    exact lookupD_foldl_insert_ne _ _ _ _ hk

theorem processGroup_bib_preserve (st : BibFile × List (Str × Str))
    (g : List Str) (k : Str) (hk : k ∉ g)
    (hid : g = [] ∨ (groupFinal st.1 g).id_key ∈ g) :
    lookupD (processGroup st g).1.bib_entries k =
      lookupD st.1.bib_entries k := by
  cases g with
  | nil => rfl
  | cons g0 gr =>
    rw [processGroup_cons]
    have hidm : (groupFinal st.1 (g0 :: gr)).id_key ∈ g0 :: gr := by
      rcases hid with h | h
      · cases h
      · exact h
    show lookupD (dictInsert _ _ _) k = _
    rw [lookupD_insert_ne _ _ _ _ (fun he => hk (by rw [he]; exact hidm))]
    exact lookupD_foldl_pop_ne _ _ _ hk

theorem foldl_pg_map_preserve :
    ∀ (gs : List (List Str)) (st : BibFile × List (Str × Str)) (k : Str),
    (∀ g ∈ gs, k ∉ g) →
    lookupD (gs.foldl processGroup st).2 k = lookupD st.2 k := by
  intro gs
  induction gs with
  | nil => intro st k _; rfl
  | cons g0 gs ih =>
    intro st k h
    simp only [List.foldl]
    rw [ih _ k (fun g hg => h g (List.mem_cons_of_mem _ hg))]
    exact processGroup_map_preserve st g0 k (h g0 (List.mem_cons_self _ _))

theorem getD_inj_of_nodup (keys : List Str) (h : keys.Nodup) (i j : Nat)
    (hi : i < keys.length) (hj : j < keys.length)
    (he : keys.getD i [] = keys.getD j []) : i = j := by
  rw [List.getD_eq_getElem keys [] hi, List.getD_eq_getElem keys [] hj] at he
  exact (List.Nodup.getElem_inj_iff h).mp he

theorem lookupD_isSome_of_mem {α : Type} (d : List (Str × α)) (k : Str)
    (h : k ∈ keysOf d) : ∃ v, lookupD d k = some v := by
  have hm := (memKeys_iff_mem d k).mpr h
  unfold memKeys at hm
  cases hv : lookupD d k with
  | none => rw [hv] at hm; cases hm
  | some v => exact ⟨v, rfl⟩

theorem findDuplicated_props (ltt : Str → Str) (bf : BibFile)
    (hnd : keysNodup bf.bib_entries) :
    (∀ g ∈ findDuplicated ltt bf,
      g ≠ [] ∧ ∀ k ∈ g, k ∈ keysOf bf.bib_entries) ∧
    List.Pairwise (fun g1 g2 => ∀ k ∈ g1, k ∉ g2)
      (findDuplicated ltt bf) := by
  obtain ⟨props, pw⟩ := dupGroupsGo_props ltt (bf.bib_entries.map Prod.snd)
    (List.range (keysOf bf.bib_entries).length).length
    (List.range (keysOf bf.bib_entries).length)
    (List.nodup_range _)
  constructor
  · intro g hg
    unfold findDuplicated at hg
    rw [List.mem_map] at hg
    obtain ⟨ig, hig, he⟩ := hg
    obtain ⟨h1, h2, h3⟩ := props ig hig
    rw [← he]
    constructor
    · simpa using h1
    · intro k hk
      rw [List.mem_map] at hk
      obtain ⟨i, hi, he2⟩ := hk
      have hilt : i < (keysOf bf.bib_entries).length :=
        List.mem_range.mp (h3 i hi)
      rw [← he2, List.getD_eq_getElem _ [] hilt]
      exact List.getElem_mem _
  · unfold findDuplicated
    rw [List.pairwise_map]
    apply List.Pairwise.imp_of_mem ?_ pw
    intro ig1 ig2 h1mem h2mem hdisj k hk1 hk2
    rw [List.mem_map] at hk1 hk2
    obtain ⟨i, hi, he1⟩ := hk1
    obtain ⟨j, hj, he2⟩ := hk2
    obtain ⟨-, -, h3a⟩ := props ig1 h1mem
    obtain ⟨-, -, h3b⟩ := props ig2 h2mem
    have hilt : i < (keysOf bf.bib_entries).length :=
      List.mem_range.mp (h3a i hi)
    have hjlt : j < (keysOf bf.bib_entries).length :=
      List.mem_range.mp (h3b j hj)
    have hij : i = j := getD_inj_of_nodup (keysOf bf.bib_entries) hnd i j
      hilt hjlt (he1.trans he2.symm)
    exact hdisj i hi (hij ▸ hj)

theorem foldl_pg_lookup (ltt : Str → Str) (orig : BibFile) :
    ∀ (gs : List (List Str)) (st : BibFile × List (Str × Str)),
    (∀ g ∈ gs, g ≠ []) →
    List.Pairwise (fun g1 g2 => ∀ k ∈ g1, k ∉ g2) gs →
    (∀ g ∈ gs, ∀ k ∈ g,
      lookupD st.1.bib_entries k = lookupD orig.bib_entries k) →
    (∀ g ∈ gs, ∀ k ∈ g, ∃ e, lookupD orig.bib_entries k = some e ∧
      e.id_key = k) →
    ∀ g ∈ gs, ∀ k ∈ g,
      lookupD (gs.foldl processGroup st).2 k =
        some (groupFinal orig g).id_key := by
  intro gs
  induction gs with
  | nil =>
    intro st _ _ _ _ g hg
    exact absurd hg (List.not_mem_nil g)
  | cons gh gs ih =>
    intro st hne hpw hag hex g hg k hk
    simp only [List.foldl]
    have haggh : ∀ k2 ∈ gh,
        lookupD st.1.bib_entries k2 = lookupD orig.bib_entries k2 :=
      hag gh (List.mem_cons_self _ _)
    have hidkeys : ∀ k2 ∈ gh, (getEntry st.1 k2).id_key = k2 := by
      intro k2 hk2
      obtain ⟨e, he1, he2⟩ := hex gh (List.mem_cons_self _ _) k2 hk2
      unfold getEntry
      rw [haggh k2 hk2, he1]
      exact he2
    have hgfin : groupFinal st.1 gh = groupFinal orig gh :=
      groupFinal_congr st.1 orig gh haggh
    have hpw1 := (List.pairwise_cons.mp hpw).1
    have hpw2 := (List.pairwise_cons.mp hpw).2
    rcases List.mem_cons.mp hg with rfl | hgs
    · have hknot : ∀ g' ∈ gs, k ∉ g' := fun g' hg' => hpw1 g' hg' k hk
      rw [foldl_pg_map_preserve gs _ k hknot]
      obtain ⟨g0, gr, rfl⟩ : ∃ g0 gr, g = g0 :: gr := by
        cases g with
        | nil => exact absurd rfl (hne _ hg)
        | cons a b => exact ⟨a, b, rfl⟩
      rw [processGroup_cons]
      show lookupD ((g0 :: gr).foldl
        (fun m k2 => dictInsert m k2
          (groupFinal st.1 (g0 :: gr)).id_key) st.2) k = _
      rw [hgfin]
      exact lookupD_foldl_insert_const _ _ _ _ (Or.inl hk)
    · refine ih (processGroup st gh)
        (fun g' hg' => hne g' (List.mem_cons_of_mem _ hg'))
        hpw2 ?_ (fun g' hg' => hex g' (List.mem_cons_of_mem _ hg'))
        g hgs k hk
      intro g' hg' k2 hk2
      have hk2gh : k2 ∉ gh := fun hmem => (hpw1 g' hg' k2 hmem) hk2
      rw [processGroup_bib_preserve st gh k2 hk2gh
        (Or.inr (hgfin ▸ groupFinal_id_mem st.1 gh
          (hne gh (List.mem_cons_self _ _)) hidkeys))]
      exact hag g' (List.mem_cons_of_mem _ hg') k2 hk2

/-- Claim C4 (counterexample): for the two-entry collection with equal
titles under keys `a` and `bb`, the duplicate group is `[a, bb]` and the
final merged identifier is `a`; the claim says `a` (equal to the final
identifier) is not mapped, but the returned rename map binds `a -> a`. -/
theorem c4_counterexample :
    findDuplicated (fun s => s)
      ⟨[("a".toList, ⟨"x".toList, "a".toList,
          [("title".toList, "T".toList)]⟩),
        ("bb".toList, ⟨"x".toList, "bb".toList,
          [("title".toList, "T".toList)]⟩)], []⟩ =
      [["a".toList, "bb".toList]] ∧
    (groupFinal
      ⟨[("a".toList, ⟨"x".toList, "a".toList,
          [("title".toList, "T".toList)]⟩),
        ("bb".toList, ⟨"x".toList, "bb".toList,
          [("title".toList, "T".toList)]⟩)], []⟩
      ["a".toList, "bb".toList]).id_key = "a".toList ∧
    lookupD (mergeDuplicated (fun s => s)
      ⟨[("a".toList, ⟨"x".toList, "a".toList,
          [("title".toList, "T".toList)]⟩),
        ("bb".toList, ⟨"x".toList, "bb".toList,
          [("title".toList, "T".toList)]⟩)], []⟩).2 ("a".toList) =
      some ("a".toList) := by
  refine ⟨by decide, by decide, by decide⟩

/-- Claim C4 (amended): for every duplicate group found by
`merge_duplicated_entries` on a collection with distinct keys satisfying
the key = id_key invariant, the returned rename map binds EVERY original
identifier of the group — including the one equal to the final merged
identifier, which is mapped to itself — to the final merged identifier
(the `id_key` of the group's left-to-right merge fold). -/
theorem c4_theorem (ltt : Str → Str) (bf : BibFile)
    (hnd : keysNodup bf.bib_entries) (hkc : keyConsistent bf)
    (g : List Str) (hg : g ∈ findDuplicated ltt bf)
    (k : Str) (hk : k ∈ g) :
    lookupD (mergeDuplicated ltt bf).2 k =
      some (groupFinal bf g).id_key := by
  obtain ⟨props, pw⟩ := findDuplicated_props ltt bf hnd
  unfold mergeDuplicated
  refine foldl_pg_lookup ltt bf (findDuplicated ltt bf) (bf, [])
    (fun g' hg' => (props g' hg').1) pw
    (fun g' hg' k2 hk2 => rfl) ?_ g hg k hk
  intro g' hg' k2 hk2
  obtain ⟨e, he⟩ := lookupD_isSome_of_mem bf.bib_entries k2
    ((props g' hg').2 k2 hk2)
  exact ⟨e, he, hkc (k2, e) (mem_of_lookupD _ _ _ he)⟩

/-- Witness for the amended C4 at the `a`/`bb` duplicate pair: both
group members, including the final identifier `a` itself, are bound to
`a` in the returned rename map. -/
theorem c4_witness :
    keysNodup
      (⟨[("a".toList, ⟨"x".toList, "a".toList,
          [("title".toList, "T".toList)]⟩),
        ("bb".toList, ⟨"x".toList, "bb".toList,
          [("title".toList, "T".toList)]⟩)], []⟩ : BibFile).bib_entries ∧
    keyConsistent
      ⟨[("a".toList, ⟨"x".toList, "a".toList,
          [("title".toList, "T".toList)]⟩),
        ("bb".toList, ⟨"x".toList, "bb".toList,
          [("title".toList, "T".toList)]⟩)], []⟩ ∧
    (["a".toList, "bb".toList] ∈ findDuplicated (fun s => s)
      ⟨[("a".toList, ⟨"x".toList, "a".toList,
          [("title".toList, "T".toList)]⟩),
        ("bb".toList, ⟨"x".toList, "bb".toList,
          [("title".toList, "T".toList)]⟩)], []⟩) ∧
    ("bb".toList ∈ (["a".toList, "bb".toList] : List Str)) ∧
    lookupD (mergeDuplicated (fun s => s)
      ⟨[("a".toList, ⟨"x".toList, "a".toList,
          [("title".toList, "T".toList)]⟩),
        ("bb".toList, ⟨"x".toList, "bb".toList,
          [("title".toList, "T".toList)]⟩)], []⟩).2 ("bb".toList) =
      some (groupFinal
        ⟨[("a".toList, ⟨"x".toList, "a".toList,
            [("title".toList, "T".toList)]⟩),
          ("bb".toList, ⟨"x".toList, "bb".toList,
            [("title".toList, "T".toList)]⟩)], []⟩
        ["a".toList, "bb".toList]).id_key :=
  ⟨by decide, by decide, by decide, by decide,
   c4_theorem (fun s => s) _ (by decide) (by decide) _ (by decide) _
     (by decide)⟩
